import Mathlib

/-
Verification of the MVCC transaction layer in `src/storage/mvcc.rs`.

The storage collaborator (an ordered byte-keyed store) is modelled as an
association list sorted by lexicographic byte order, exactly the interface the
engine assumes: point get/put/delete, bounded range scan in ascending key
order, and prefix scan.  Keys and values are byte strings (`List Nat`).

The key encoding mirrors what `bincode::serialize` (the default bincode 1.x
configuration used by the repository) produces for the `MvccKey` /
`MvccKeyPrefix` enums: a little-endian fixed 4-byte `u32` variant tag,
little-endian fixed 8-byte `u64` integers (the `Version` newtype), and
`Vec<u8>` as a little-endian `u64` length followed by the raw bytes.
-/

namespace SqldbMvcc

/-- Byte strings: storage keys and values (`Vec<u8>` in the source). -/
abbrev ByteStr := List Nat

/-- Strict lexicographic order on byte strings, as Rust's `Ord for Vec<u8>`:
a proper prefix sorts before its extensions. -/
def lexLt : ByteStr → ByteStr → Bool
  | [], [] => false
  | [], _ :: _ => true
  | _ :: _, [] => false
  | a :: as, b :: bs => if a < b then true else if a = b then lexLt as bs else false

/-- Non-strict lexicographic order, `a ≤ b` iff `¬ b < a` (the order is total). -/
def lexLe (a b : ByteStr) : Bool := !(lexLt b a)

/-- Does the byte string `s` start with `p`? (Rust `slice::starts_with`,
used by the storage engine's `scan_prefix`.) -/
def startsWith : ByteStr → ByteStr → Bool
  | [], _ => true
  | _ :: _, [] => false
  | a :: as, b :: bs => if a = b then startsWith as bs else false

/-- The external ordered key-value store, as an association list sorted
strictly ascending by `lexLt` on keys. -/
abbrev Storage := List (ByteStr × ByteStr)

/-- Point lookup (`Storage::get`). -/
def sget : Storage → ByteStr → Option ByteStr
  | [], _ => none
  | (k, v) :: rest, key => if k = key then some v else sget rest key

/-- Point write (`Storage::put`): insert or overwrite, keeping keys sorted. -/
def sput : Storage → ByteStr → ByteStr → Storage
  | [], key, val => [(key, val)]
  | (k, v) :: rest, key, val =>
    if lexLt key k then (key, val) :: (k, v) :: rest
    else if key = k then (key, val) :: rest
    else (k, v) :: sput rest key val

/-- Point delete (`Storage::delete`); deleting an absent key is a no-op. -/
def sdel : Storage → ByteStr → Storage
  | [], _ => []
  | (k, v) :: rest, key => if k = key then rest else (k, v) :: sdel rest key

/-- Bounded range scan (`Storage::scan`), ascending key order.  `hiIncl`
selects between `lo..=hi` (write path) and `lo..hi` (read path). -/
def sscan (s : Storage) (lo hi : ByteStr) (hiIncl : Bool) : Storage :=
  s.filter fun e => lexLe lo e.1 && (if hiIncl then lexLe e.1 hi else lexLt e.1 hi)

/-- Prefix scan (`Storage::scan_prefix`), ascending key order. -/
def sscanPfx (s : Storage) (p : ByteStr) : Storage :=
  s.filter fun e => startsWith p e.1

/-- Little-endian fixed-width 8-byte encoding of a `u64`
(bincode's fixint representation, `Version::encode`). -/
def le64 (n : Nat) : ByteStr :=
  [n % 256, n / 256 % 256, n / 256 ^ 2 % 256, n / 256 ^ 3 % 256,
   n / 256 ^ 4 % 256, n / 256 ^ 5 % 256, n / 256 ^ 6 % 256, n / 256 ^ 7 % 256]

/-- `Version::max()`, the `u64::MAX` sentinel bounding the write-path scan. -/
def vmax : Nat := 2 ^ 64 - 1

/-- The four logical key families of the engine (`enum MvccKey`). -/
inductive MvccKey where
  | nextVersion
  | txnActive (v : Nat)
  | txnWrite (v : Nat) (key : ByteStr)
  | version (key : ByteStr) (v : Nat)
deriving DecidableEq

/-- `MvccKey::encode`: bincode layout — u32 LE variant tag, u64 LE version
fields, `Vec<u8>` as u64 LE length plus raw bytes. -/
def MvccKey.encode : MvccKey → ByteStr
  | .nextVersion => [0, 0, 0, 0]
  | .txnActive v => [1, 0, 0, 0] ++ le64 v
  | .txnWrite v k => [2, 0, 0, 0] ++ le64 v ++ le64 k.length ++ k
  | .version k v => [3, 0, 0, 0] ++ le64 k.length ++ k ++ le64 v

/-- The scan-bounding key prefixes (`enum MvccKeyPrefix`). -/
inductive MvccKeyPfx where
  | nextVersion
  | txnActive
  | txnWrite (v : Nat)
  | version (key : ByteStr)

/-- `MvccKeyPrefix::encode`, same bincode layout as the full keys. -/
def MvccKeyPfx.encode : MvccKeyPfx → ByteStr
  | .nextVersion => [0, 0, 0, 0]
  | .txnActive => [1, 0, 0, 0]
  | .txnWrite v => [2, 0, 0, 0] ++ le64 v
  | .version k => [3, 0, 0, 0] ++ le64 k.length ++ k

/-- Read a little-endian u64 from the front of a byte string
(bincode fixint deserialization). -/
def readLe64 : ByteStr → Option (Nat × ByteStr)
  | b0 :: b1 :: b2 :: b3 :: b4 :: b5 :: b6 :: b7 :: rest =>
    some (b0 + 256 * b1 + 256 ^ 2 * b2 + 256 ^ 3 * b3 + 256 ^ 4 * b4 +
          256 ^ 5 * b5 + 256 ^ 6 * b6 + 256 ^ 7 * b7, rest)
  | _ => none

/-- Read exactly `n` raw bytes from the front of a byte string. -/
def readBytes (n : Nat) (bs : ByteStr) : Option (ByteStr × ByteStr) :=
  if n ≤ bs.length then some (bs.take n, bs.drop n) else none

/-- `Version::decode` applied to a stored value. -/
def decodeVersionVal (bs : ByteStr) : Option Nat :=
  (readLe64 bs).map (·.1)

/-- `MvccKey::decode`: parse the u32 variant tag then the fields; bincode's
default configuration tolerates trailing bytes and rejects everything else. -/
def MvccKey.decode (bs : ByteStr) : Option MvccKey :=
  match bs with
  | 0 :: 0 :: 0 :: 0 :: _ => some .nextVersion
  | 1 :: 0 :: 0 :: 0 :: rest => (readLe64 rest).map fun p => .txnActive p.1
  | 2 :: 0 :: 0 :: 0 :: rest =>
    match readLe64 rest with
    | some (v, r1) =>
      match readLe64 r1 with
      | some (len, r2) =>
        match readBytes len r2 with
        | some (k, _) => some (.txnWrite v k)
        | none => none
      | none => none
    | none => none
  | 3 :: 0 :: 0 :: 0 :: rest =>
    match readLe64 rest with
    | some (len, r1) =>
      match readBytes len r1 with
      | some (k, r2) =>
        match readLe64 r2 with
        | some (v, _) => some (.version k v)
        | none => none
      | none => none
    | none => none
  | _ => none

/-- The error kinds surfaced by the engine: `Error::WriteConflict` and the
internal/decode error (`Error::InternalError`, also covering bincode
decode failures which the engine propagates the same way). -/
inductive MvccError where
  | writeConflict
  | internalError
deriving DecidableEq

/-- An engine instance (`struct Mvcc`): the version allocated at begin time
and the snapshot of then-active versions. -/
structure Txn where
  currentVersion : Nat
  activeVersions : List Nat
deriving DecidableEq

/-- `Mvcc::is_version_visible`: `v` is visible iff `v ≤ current_version`
and `v` is not in the active-set snapshot. -/
def isVersionVisible (t : Txn) (v : Nat) : Bool :=
  decide (v ≤ t.currentVersion) && !(t.activeVersions.contains v)

/-- Minimum of the active set, or the default used by the write path when the
active set is empty (`iter().min().unwrap_or(current_version + 1)`). -/
def minOr (l : List Nat) (d : Nat) : Nat :=
  match l.min? with
  | some m => m
  | none => d

/-- `Mvcc::scan_active_txn`'s decoding loop over the scanned entries:
collect the version of every `TxnActive` key, failing on anything else. -/
def collectActive : List (ByteStr × ByteStr) → Except MvccError (List Nat)
  | [] => .ok []
  | (k, _) :: rest =>
    match MvccKey.decode k with
    | some (.txnActive v) =>
      match collectActive rest with
      | .ok l => .ok (v :: l)
      | .error e => .error e
    | _ => .error .internalError

/-- The mutating tail of `Mvcc::begin` once the next version `nv` is known:
store `nv + 1` back, register `TxnActive(nv)`, then scan the active set. -/
def beginWith (nv : Nat) (s : Storage) : Except MvccError Txn × Storage :=
  let s1 := sput s MvccKey.nextVersion.encode (le64 (nv + 1))
  let s2 := sput s1 (MvccKey.txnActive nv).encode []
  match collectActive (sscanPfx s2 MvccKeyPfx.txnActive.encode) with
  | .ok l => (.ok ⟨nv, l⟩, s2)
  | .error e => (.error e, s2)

/-- `Mvcc::begin`: read `NextVersion` (default 1 when absent), bump it,
register the transaction as active, snapshot the active set. -/
def mvccBegin (s : Storage) : Except MvccError Txn × Storage :=
  match sget s MvccKey.nextVersion.encode with
  | some bytes =>
    match decodeVersionVal bytes with
    | some nv => beginWith nv s
    | none => (.error .internalError, s)
  | none => beginWith 1 s

/-- The mutations performed by a conflict-free `write_inner`: record the
`TxnWrite` marker, then put (`Some`) or delete (`None`) the `Version` entry. -/
def applyWrite (t : Txn) (s : Storage) (key : ByteStr) (value : Option ByteStr) :
    Except MvccError Unit × Storage :=
  let s1 := sput s (MvccKey.txnWrite t.currentVersion key).encode []
  match value with
  | some v => (.ok (), sput s1 (MvccKey.version key t.currentVersion).encode v)
  | none => (.ok (), sdel s1 (MvccKey.version key t.currentVersion).encode)

/-- `Mvcc::write_inner`: scan `Version(key, ·)` from the smallest
possibly-invisible version up to `Version::max()` inclusive; if the last
entry's version is invisible, fail with a write conflict; otherwise record
the write. -/
def writeInner (t : Txn) (s : Storage) (key : ByteStr) (value : Option ByteStr) :
    Except MvccError Unit × Storage :=
  let lo := (MvccKey.version key (minOr t.activeVersions (t.currentVersion + 1))).encode
  let hi := (MvccKey.version key vmax).encode
  match (sscan s lo hi true).getLast? with
  | some (k, _) =>
    match MvccKey.decode k with
    | some (.version _ v) =>
      if isVersionVisible t v then applyWrite t s key value
      else (.error .writeConflict, s)
    | some _ => (.error .internalError, s)
    | none => (.error .internalError, s)
  | none => applyWrite t s key value

/-- `Mvcc::set`. -/
def mvccSet (t : Txn) (s : Storage) (key val : ByteStr) :
    Except MvccError Unit × Storage :=
  writeInner t s key (some val)

/-- `Mvcc::delete`. -/
def mvccDelete (t : Txn) (s : Storage) (key : ByteStr) :
    Except MvccError Unit × Storage :=
  writeInner t s key none

/-- `Mvcc::get`'s search loop over the (reversed, newest-first) scan:
return the first entry whose version is visible, failing on keys that do
not decode to the `Version` family. -/
def getLoop (t : Txn) : List (ByteStr × ByteStr) → Except MvccError (Option ByteStr)
  | [] => .ok none
  | (k, v) :: rest =>
    match MvccKey.decode k with
    | some (.version _ ver) =>
      if isVersionVisible t ver then .ok (some v) else getLoop t rest
    | _ => .error .internalError

/-- `Mvcc::get`: scan `Version(key, ·)` over `[Version::min(),
current_version)` (exclusive upper bound) and take the newest visible entry. -/
def mvccGet (t : Txn) (s : Storage) (key : ByteStr) : Except MvccError (Option ByteStr) :=
  let lo := (MvccKey.version key 0).encode
  let hi := (MvccKey.version key t.currentVersion).encode
  getLoop t ((sscan s lo hi false).reverse)

/-- `Mvcc::scan_visible_versions`' filtering loop: keep the raw storage
entry when the decoded version is visible, drop invisible ones, and fail
on keys outside the `Version` family. -/
def scanLoop (t : Txn) : List (ByteStr × ByteStr) → Except MvccError (List (ByteStr × ByteStr))
  | [] => .ok []
  | (k, v) :: rest =>
    match MvccKey.decode k with
    | some (.version _ ver) =>
      match scanLoop t rest with
      | .ok l => .ok (if isVersionVisible t ver then (k, v) :: l else l)
      | .error e => .error e
    | _ => .error .internalError

/-- `Mvcc::scan_visible_versions`: prefix-scan with
`MvccKeyPrefix::Version(prefix)` and keep the visible entries. -/
def scanVisibleVersions (t : Txn) (s : Storage) (pfx : ByteStr) :
    Except MvccError (List (ByteStr × ByteStr)) :=
  scanLoop t (sscanPfx s (MvccKeyPfx.version pfx).encode)

/-- `Mvcc::commit`'s collection loop: decode every scanned `TxnWrite` entry
to the logical key recorded inside it. -/
def collectTxnWrites : List (ByteStr × ByteStr) → Except MvccError (List ByteStr)
  | [] => .ok []
  | (k, _) :: rest =>
    match MvccKey.decode k with
    | some (.txnWrite _ key) =>
      match collectTxnWrites rest with
      | .ok l => .ok (key :: l)
      | .error e => .error e
    | _ => .error .internalError

/-- Delete a list of keys in order. -/
def sdelAll (s : Storage) : List ByteStr → Storage
  | [] => s
  | k :: rest => sdelAll (sdel s k) rest

/-- `Mvcc::commit`: scan the transaction's `TxnWrite` entries, delete each
collected (decoded, logical) key, then delete the `TxnActive` marker.
Note the source deletes the decoded logical keys, not the scanned
`TxnWrite` storage keys. -/
def mvccCommit (t : Txn) (s : Storage) : Except MvccError Unit × Storage :=
  match collectTxnWrites (sscanPfx s (MvccKeyPfx.txnWrite t.currentVersion).encode) with
  | .ok keys =>
    (.ok (), sdel (sdelAll s keys) (MvccKey.txnActive t.currentVersion).encode)
  | .error e => (.error e, s)

/-- `Mvcc::rollback`'s collection loop: map every scanned `TxnWrite` entry
to the encoded `Version(key, current_version)` key it protects. -/
def collectRollbackKeys (cur : Nat) : List (ByteStr × ByteStr) → Except MvccError (List ByteStr)
  | [] => .ok []
  | (k, _) :: rest =>
    match MvccKey.decode k with
    | some (.txnWrite _ key) =>
      match collectRollbackKeys cur rest with
      | .ok l => .ok ((MvccKey.version key cur).encode :: l)
      | .error e => .error e
    | _ => .error .internalError

/-- `Mvcc::rollback`: delete the `Version(key, current_version)` entry of
every recorded write, then delete the `TxnActive` marker (the `TxnWrite`
entries themselves are not deleted by the source). -/
def mvccRollback (t : Txn) (s : Storage) : Except MvccError Unit × Storage :=
  match collectRollbackKeys t.currentVersion
      (sscanPfx s (MvccKeyPfx.txnWrite t.currentVersion).encode) with
  | .ok keys =>
    (.ok (), sdel (sdelAll s keys) (MvccKey.txnActive t.currentVersion).encode)
  | .error e => (.error e, s)

/-- Well-formed storage: every key is the encoding of some `MvccKey`
(the engine itself only ever writes such keys), and the `NextVersion`
entry, when present, holds an encoded `u64` that can still be bumped
without overflowing (as `u64` arithmetic requires). -/
def WFStorage (s : Storage) : Prop :=
  (∀ p ∈ s, ∃ mk : MvccKey, p.1 = mk.encode) ∧
  (∀ bs, sget s MvccKey.nextVersion.encode = some bs →
    ∃ n, n + 1 < 2 ^ 64 ∧ bs = le64 n)

/-- Concrete storage exhibiting a write conflict: key `[107]` was last
written at version 2, invisible to the transaction `⟨1, [1]⟩`. -/
def c10s : Storage := [((MvccKey.version [107] 2).encode, [1])]

/-- Storage after the first `begin` on an empty store (transaction 1). -/
def c1w1 : Storage := (mvccBegin []).2

/-- Storage after transaction 1 commits (clean commit, no writes). -/
def c1w2 : Storage := (mvccCommit ⟨1, [1]⟩ c1w1).2

/-- Storage after transaction A = `⟨2, [2]⟩` begins. -/
def c1w3 : Storage := (mvccBegin c1w2).2

/-- Storage after transaction C = `⟨3, [2, 3]⟩` begins. -/
def c1w4 : Storage := (mvccBegin c1w3).2

/-- Storage after C sets logical key `[0,0,0,0]` (the encoded `NextVersion`
storage key) to `[99]`. -/
def c1w5 : Storage := (mvccSet ⟨3, [2, 3]⟩ c1w4 [0, 0, 0, 0] [99]).2

/-- Storage after C commits: `commit` deletes the decoded logical keys of
its `TxnWrite` records, here the raw bytes `[0,0,0,0]`, which is exactly the
`NextVersion` counter entry — the counter is destroyed. -/
def c1w6 : Storage := (mvccCommit ⟨3, [2, 3]⟩ c1w5).2

/-- Storage after transaction B begins: with `NextVersion` gone it is
allocated the already-used version 1 again. -/
def c1w7 : Storage := (mvccBegin c1w6).2

/-- Storage after B sets key `[107]` to `[98]`. -/
def c1w8 : Storage := (mvccSet ⟨1, [1, 2]⟩ c1w7 [107] [98]).2

/-- Storage after B commits. -/
def c1w9 : Storage := (mvccCommit ⟨1, [1, 2]⟩ c1w8).2

/-- Storage after a fresh `begin` (transaction `⟨1, [1]⟩`) on an empty store. -/
def freshS1 : Storage := (mvccBegin []).2

/-- Storage after transaction 1 sets `"a/1"` to `[49]`. -/
def c3r2 : Storage := (mvccSet ⟨1, [1]⟩ freshS1 [97, 47, 49] [49]).2

/-- Storage after transaction 1 also sets `"a/2"` to `[50]`. -/
def c3r3 : Storage := (mvccSet ⟨1, [1]⟩ c3r2 [97, 47, 50] [50]).2

/-- Storage after transaction 1 also sets `"b/1"` to `[51]`. -/
def c3r4 : Storage := (mvccSet ⟨1, [1]⟩ c3r3 [98, 47, 49] [51]).2

/-- Storage after transaction 1 commits its three writes. -/
def c3r5 : Storage := (mvccCommit ⟨1, [1]⟩ c3r4).2

/-- Storage after transaction 2 begins. -/
def c3r6 : Storage := (mvccBegin c3r5).2

/-- Storage after transaction 1 sets key `[107]` to `[120]`. -/
def c5u2 : Storage := (mvccSet ⟨1, [1]⟩ freshS1 [107] [120]).2

/-- Storage after transaction A sets logical key `[0,0,0,0]` to `[118, 49]`. -/
def c6s2 : Storage := (mvccSet ⟨1, [1]⟩ freshS1 [0, 0, 0, 0] [118, 49]).2

/-- Storage after A commits, which deletes the raw bytes `[0,0,0,0]` — the
`NextVersion` counter entry — from storage. -/
def c6s3 : Storage := (mvccCommit ⟨1, [1]⟩ c6s2).2

/-- Storage after transaction B begins on the damaged store. -/
def c6s4 : Storage := (mvccBegin c6s3).2

/-- Storage after transaction A = `⟨1, [1]⟩` begins on an empty store. -/
def c4s1 : Storage := (mvccBegin []).2

/-- Storage after transaction B = `⟨2, [1, 2]⟩` begins. -/
def c4s2 : Storage := (mvccBegin c4s1).2

/-- Storage after B sets an arbitrary key `k` to `v`: the two begin-time
entries plus B's `TxnWrite` marker and `Version` entry, in key order. -/
def c4s3 (k v : ByteStr) : Storage :=
  [(MvccKey.nextVersion.encode, le64 3), ((MvccKey.txnActive 1).encode, []),
   ((MvccKey.txnActive 2).encode, []), ((MvccKey.txnWrite 2 k).encode, []),
   ((MvccKey.version k 2).encode, v)]

/-- Storage after B commits its write of `k`. -/
def c4s4 (k v : ByteStr) : Storage := (mvccCommit ⟨2, [1, 2]⟩ (c4s3 k v)).2

/-- Storage after transaction 1 sets an arbitrary key `k` to `x` on a fresh
store. -/
def c7s2 (k x : ByteStr) : Storage :=
  [(MvccKey.nextVersion.encode, le64 2), ((MvccKey.txnActive 1).encode, []),
   ((MvccKey.txnWrite 1 k).encode, []), ((MvccKey.version k 1).encode, x)]

/-- Storage after transaction 1 rolls its write of `k` back. -/
def c7s3 (k x : ByteStr) : Storage := (mvccRollback ⟨1, [1]⟩ (c7s2 k x)).2

/-- Storage after transaction 2 begins following the rollback. -/
def c7s4 (k x : ByteStr) : Storage := (mvccBegin (c7s3 k x)).2

theorem lexLt_cons (a b : Nat) (as bs : ByteStr) :
    lexLt (a :: as) (b :: bs) =
      if a < b then true else if a = b then lexLt as bs else false := rfl

theorem lexLt_irrefl (a : ByteStr) : lexLt a a = false := by
  induction a with
  | nil => rfl
  | cons x xs ih => simp [lexLt_cons, ih]

theorem lexLt_append_same (p a b : ByteStr) : lexLt (p ++ a) (p ++ b) = lexLt a b := by
  induction p with
  | nil => rfl
  | cons x xs ih => simp [lexLt_cons, ih]

theorem lexLt_cons_of_lt {a b : Nat} (as bs : ByteStr) (h : a < b) :
    lexLt (a :: as) (b :: bs) = true := by
  simp [lexLt_cons, h]

theorem lexLt_cons_of_gt {a b : Nat} (as bs : ByteStr) (h : b < a) :
    lexLt (a :: as) (b :: bs) = false := by
  simp [lexLt_cons]
  omega

theorem lexLe_cons_of_gt {a b : Nat} (as bs : ByteStr) (h : b < a) :
    lexLe (a :: as) (b :: bs) = false := by
  simp [lexLe, lexLt_cons_of_lt bs as h]

theorem lexLe_cons_of_lt {a b : Nat} (as bs : ByteStr) (h : a < b) :
    lexLe (a :: as) (b :: bs) = true := by
  simp [lexLe, lexLt_cons_of_gt bs as h]

theorem startsWith_cons_ne {a b : Nat} (as bs : ByteStr) (h : a ≠ b) :
    startsWith (a :: as) (b :: bs) = false := by
  simp [startsWith, h]

theorem startsWith_self_append (p r : ByteStr) : startsWith p (p ++ r) = true := by
  induction p with
  | nil => rfl
  | cons x xs ih => simp [startsWith, ih]

theorem sget_mem {s : Storage} {key v : ByteStr} (h : sget s key = some v) :
    (key, v) ∈ s := by
  induction s with
  | nil => simp [sget] at h
  | cons p rest ih =>
    obtain ⟨k, w⟩ := p
    by_cases hk : k = key
    · subst hk
      simp [sget] at h
      simp [h]
    · simp [sget, hk] at h
      exact List.mem_cons_of_mem _ (ih h)

theorem mem_sput {s : Storage} {key val : ByteStr} {p : ByteStr × ByteStr}
    (h : p ∈ sput s key val) : p = (key, val) ∨ p ∈ s := by
  induction s with
  | nil => simpa [sput] using h
  | cons q rest ih =>
    obtain ⟨k, w⟩ := q
    simp only [sput] at h
    split at h
    · rcases List.mem_cons.mp h with h | h
      · exact Or.inl h
      · exact Or.inr h
    · split at h
      · rcases List.mem_cons.mp h with h | h
        · exact Or.inl h
        · exact Or.inr (List.mem_cons_of_mem _ h)
      · rcases List.mem_cons.mp h with h | h
        · exact Or.inr (by simp [h])
        · rcases ih h with h' | h'
          · exact Or.inl h'
          · exact Or.inr (List.mem_cons_of_mem _ h')

theorem sget_sput_self (s : Storage) (key val : ByteStr) :
    sget (sput s key val) key = some val := by
  induction s with
  | nil => simp [sput, sget]
  | cons q rest ih =>
    obtain ⟨k, w⟩ := q
    simp only [sput]
    split
    · simp [sget]
    · split
      · simp [sget]
      · rename_i h1 h2
        have hne : k ≠ key := fun h => h2 h.symm
        simp [sget, hne, ih]

theorem sget_sput_ne (s : Storage) {key key2 : ByteStr} (val : ByteStr)
    (h : key ≠ key2) : sget (sput s key val) key2 = sget s key2 := by
  induction s with
  | nil => simp [sput, sget, h]
  | cons q rest ih =>
    obtain ⟨k, w⟩ := q
    simp only [sput]
    split
    · simp [sget, h]
    · split
      · rename_i h1 h2
        subst h2
        simp [sget, h]
      · simp [sget, ih]

theorem filter_sdel (s : Storage) (a : ByteStr) (f : ByteStr × ByteStr → Bool)
    (hf : ∀ w, f (a, w) = false) :
    (sdel s a).filter f = s.filter f := by
  induction s with
  | nil => rfl
  | cons q rest ih =>
    obtain ⟨k, w⟩ := q
    by_cases hk : k = a
    · subst hk
      simp [sdel, List.filter_cons, hf]
    · simp [sdel, hk, List.filter_cons, ih]

theorem lex_between_extends (p : ByteStr) :
    ∀ x a b : ByteStr, lexLe (p ++ a) x = true → lexLe x (p ++ b) = true →
      ∃ r, x = p ++ r := by
  induction p with
  | nil => exact fun x a b _ _ => ⟨x, rfl⟩
  | cons c cs ih =>
    intro x a b h1 h2
    match x with
    | [] => simp [lexLe, lexLt] at h1
    | d :: xs =>
      simp only [List.cons_append, lexLe, lexLt_cons, Bool.not_eq_true'] at h1 h2
      by_cases hdc : d = c
      · subst hdc
        simp at h1 h2
        obtain ⟨r, hr⟩ := ih xs a b (by simp [lexLe, h1]) (by simp [lexLe, h2])
        exact ⟨r, by simp [hr]⟩
      · by_cases hlt : d < c
        · simp [hlt] at h1
        · have hgt : c < d := by omega
          simp [hgt] at h2

/-- The three bincode length/width facts used throughout: an 8-byte
little-endian block decodes back to the encoded number modulo `2 ^ 64`. -/
theorem readLe64_le64 (n : Nat) (r : ByteStr) :
    readLe64 (le64 n ++ r) = some (n % 2 ^ 64, r) := by
  simp only [le64, List.cons_append, List.nil_append, readLe64]
  congr 1
  congr 1
  omega

theorem readLe64_le64_lt {n : Nat} (r : ByteStr) (h : n < 2 ^ 64) :
    readLe64 (le64 n ++ r) = some (n, r) := by
  rw [readLe64_le64, Nat.mod_eq_of_lt h]

theorem decodeVersionVal_le64 {n : Nat} (h : n < 2 ^ 64) :
    decodeVersionVal (le64 n) = some n := by
  have := readLe64_le64_lt ([] : ByteStr) h
  simp only [List.append_nil] at this
  simp [decodeVersionVal, this]

theorem readBytes_exact (k r : ByteStr) : readBytes k.length (k ++ r) = some (k, r) := by
  simp [readBytes, List.take_left, List.drop_left]

/-- Bincode round trip for `TxnActive` keys. -/
theorem decode_encode_txnActive (v : Nat) :
    MvccKey.decode (MvccKey.txnActive v).encode = some (.txnActive (v % 2 ^ 64)) := by
  have h := readLe64_le64 v []
  simp only [List.append_nil] at h
  simp [MvccKey.encode, MvccKey.decode, h]

/-- Bincode round trip for `TxnWrite` keys (the real `Vec` length and `u64`
version always satisfy the bounds). -/
theorem decode_encode_txnWrite (v : Nat) (k : ByteStr) (hv : v < 2 ^ 64)
    (hk : k.length < 2 ^ 64) :
    MvccKey.decode (MvccKey.txnWrite v k).encode = some (.txnWrite v k) := by
  have h1 : readLe64 (le64 v ++ (le64 k.length ++ k)) = some (v, le64 k.length ++ k) :=
    readLe64_le64_lt _ hv
  have h2 : readLe64 (le64 k.length ++ k) = some (k.length, k) :=
    readLe64_le64_lt _ hk
  have h3 : readBytes k.length k = some (k, []) := by
    have := readBytes_exact k []
    simpa using this
  simp [MvccKey.encode, MvccKey.decode, List.append_assoc, h1, h2, h3]

/-- Bincode round trip for `Version` keys. -/
theorem decode_encode_version (k : ByteStr) (v : Nat) (hv : v < 2 ^ 64)
    (hk : k.length < 2 ^ 64) :
    MvccKey.decode (MvccKey.version k v).encode = some (.version k v) := by
  have h1 : readLe64 (le64 k.length ++ (k ++ le64 v)) = some (k.length, k ++ le64 v) :=
    readLe64_le64_lt _ hk
  have h2 : readBytes k.length (k ++ le64 v) = some (k, le64 v) := readBytes_exact k _
  have h3 : readLe64 (le64 v) = some (v, []) := by
    have := readLe64_le64_lt ([] : ByteStr) hv
    simpa using this
  simp [MvccKey.encode, MvccKey.decode, List.append_assoc, h1, h2, h3]

/-- `Version` keys written out with the family/length prefix in front. -/
theorem encV_split (k : ByteStr) (v : Nat) :
    (MvccKey.version k v).encode = ([3, 0, 0, 0] ++ le64 k.length ++ k) ++ le64 v := by
  simp [MvccKey.encode, List.append_assoc]

/-- No byte string sits in the scan range of its own `Version` family keys:
the bounds share a prefix strictly longer than the string itself. -/
theorem not_in_own_version_range (k : ByteStr) (lo hi : Nat)
    (h1 : lexLe (MvccKey.version k lo).encode k = true)
    (h2 : lexLe k (MvccKey.version k hi).encode = true) : False := by
  rw [encV_split] at h1 h2
  obtain ⟨r, hr⟩ := lex_between_extends _ k _ _ h1 h2
  have := congrArg List.length hr
  simp [le64] at this
  omega

/-- Claim C10: the write path mutates nothing when it fails.  Whenever
`write_inner` returns an error (the write conflict, or the internal decode
error raised while scanning the version range), it returns before recording
the `TxnWrite` marker or touching the `Version` entry, so the storage state
it leaves behind is exactly the input state. -/
theorem c10_write_error_atomic (t : Txn) (s : Storage) (key : ByteStr)
    (value : Option ByteStr) (e : MvccError) (s2 : Storage)
    (h : writeInner t s key value = (.error e, s2)) : s2 = s := by
  have happ : ∀ u : Storage, applyWrite t u key value ≠ (.error e, s2) := by
    intro u hcontra
    cases value <;> simp [applyWrite] at hcontra
  simp only [writeInner] at h
  split at h
  · split at h
    · split at h
      · exact absurd h (happ s)
      · simpa using (congrArg Prod.snd h).symm
    · simpa using (congrArg Prod.snd h).symm
    · simpa using (congrArg Prod.snd h).symm
  · exact absurd h (happ s)

/-- Witness for C10 at a concrete conflicting input. -/
theorem c10_write_error_atomic_witness :
    (writeInner ⟨1, [1]⟩ c10s [107] (some [5])).2 = c10s :=
  c10_write_error_atomic ⟨1, [1]⟩ c10s [107] (some [5]) .writeConflict
    (writeInner ⟨1, [1]⟩ c10s [107] (some [5])).2 rfl

theorem encV_cons (k : ByteStr) (v : Nat) :
    (MvccKey.version k v).encode = 3 :: 0 :: 0 :: 0 :: (le64 k.length ++ (k ++ le64 v)) := by
  simp [MvccKey.encode, List.append_assoc]

theorem encTW_cons (v : Nat) (k : ByteStr) :
    (MvccKey.txnWrite v k).encode = 2 :: 0 :: 0 :: 0 :: (le64 v ++ (le64 k.length ++ k)) := by
  simp [MvccKey.encode, List.append_assoc]

theorem encTA_cons (v : Nat) :
    (MvccKey.txnActive v).encode = 1 :: 0 :: 0 :: 0 :: le64 v := rfl

/-- Soundness of the `get` search loop: a returned value belongs to a scanned
entry whose key decodes to a visible `Version` key. -/
theorem getLoop_ok_some (t : Txn) (L : List (ByteStr × ByteStr)) (val : ByteStr)
    (h : getLoop t L = .ok (some val)) :
    ∃ ek kk ver, (ek, val) ∈ L ∧ MvccKey.decode ek = some (.version kk ver) ∧
      isVersionVisible t ver = true := by
  induction L with
  | nil => simp [getLoop] at h
  | cons p rest ih =>
    obtain ⟨k, v⟩ := p
    simp only [getLoop] at h
    split at h
    · rename_i kk ver hdec
      split at h
      · rename_i hvis
        have hv : v = val := by simpa using h
        subst hv
        exact ⟨k, kk, ver, List.mem_cons_self _ _, hdec, hvis⟩
      · obtain ⟨ek, kk2, ver2, hmem, hdec2, hvis2⟩ := ih h
        exact ⟨ek, kk2, ver2, List.mem_cons_of_mem _ hmem, hdec2, hvis2⟩
    · simp at h

/-- Soundness of `Mvcc::get`: a returned value is the value of a storage
entry whose key decodes to a visible `Version` key and lies inside the
read-path scan range `[Version(key, 0), Version(key, current_version))`. -/
theorem mvccGet_ok_some (t : Txn) (s : Storage) (key val : ByteStr)
    (h : mvccGet t s key = .ok (some val)) :
    ∃ ek kk ver, (ek, val) ∈ s ∧ MvccKey.decode ek = some (.version kk ver) ∧
      isVersionVisible t ver = true ∧
      lexLe (MvccKey.version key 0).encode ek = true ∧
      lexLt ek (MvccKey.version key t.currentVersion).encode = true := by
  simp only [mvccGet] at h
  obtain ⟨ek, kk, ver, hmem, hdec, hvis⟩ := getLoop_ok_some t _ val h
  rw [List.mem_reverse] at hmem
  simp only [sscan] at hmem
  have h2 := List.mem_filter.mp hmem
  have h3 := h2.2
  have h4 : lexLe (MvccKey.version key 0).encode ek = true ∧
      lexLt ek (MvccKey.version key t.currentVersion).encode = true := by
    simpa using h3
  exact ⟨ek, kk, ver, h2.1, hdec, hvis, h4.1, h4.2⟩

/-- A successful `write_inner` leaves exactly the state that `applyWrite`
(the `TxnWrite` marker plus the `Version` put/delete) produces. -/
theorem writeInner_ok_state (t : Txn) (s : Storage) (key : ByteStr)
    (value : Option ByteStr) (u : Unit) (s2 : Storage)
    (h : writeInner t s key value = (.ok u, s2)) :
    s2 = (applyWrite t s key value).2 := by
  simp only [writeInner] at h
  split at h
  · split at h
    · split at h
      · simpa using (congrArg Prod.snd h).symm
      · exact absurd (congrArg Prod.fst h) (by simp)
    · exact absurd (congrArg Prod.fst h) (by simp)
    · exact absurd (congrArg Prod.fst h) (by simp)
  · simpa using (congrArg Prod.snd h).symm

/-- Claim C9: a transaction can never read its own uncommitted write.  If
`set key v` succeeds (with `v` a value not already present in storage) then
a subsequent `get key` by the same transaction never returns `v`: the read
scan's upper bound `Version(key, current_version)` is exclusive, so the
entry just written at the transaction's own version is outside the scanned
range, and everything the scan can return was already in the pre-write
store. -/
theorem c9_own_write_invisible (t : Txn) (s s2 : Storage) (key v : ByteStr)
    (hw : writeInner t s key (some v) = (.ok (), s2))
    (hfresh : ∀ p ∈ s, p.2 ≠ v) :
    mvccGet t s2 key ≠ .ok (some v) := by
  intro hget
  obtain ⟨ek, kk, ver, hmem, hdec, hvis, hlo, hhi⟩ := mvccGet_ok_some t s2 key v hget
  have hs2 : s2 = (applyWrite t s key (some v)).2 := writeInner_ok_state _ _ _ _ _ _ hw
  simp only [applyWrite] at hs2
  subst hs2
  rcases mem_sput hmem with heq | hmem1
  · have hek : ek = (MvccKey.version key t.currentVersion).encode :=
      congrArg Prod.fst heq
    rw [hek, lexLt_irrefl] at hhi
    exact absurd hhi (by simp)
  · rcases mem_sput hmem1 with heq | hmem2
    · have hek : ek = (MvccKey.txnWrite t.currentVersion key).encode :=
        congrArg Prod.fst heq
      rw [hek, encV_cons, encTW_cons, lexLe_cons_of_gt _ _ (by norm_num)] at hlo
      exact absurd hlo (by simp)
    · exact hfresh _ hmem2 rfl

/-- Witness for C9: transaction 1 writes `[120]` to key `[107]` into an empty
store; the subsequent own `get` does not return the written value. -/
theorem c9_own_write_invisible_witness :
    mvccGet ⟨1, [1]⟩ (writeInner ⟨1, [1]⟩ [] [107] (some [120])).2 [107] ≠
      .ok (some [120]) :=
  c9_own_write_invisible ⟨1, [1]⟩ [] _ [107] [120] rfl (by simp)

/-- Claim C1 fails on the code: snapshot isolation is violated.  In this
trace every step succeeds; transaction A (version 2) begins at step 3,
strictly before transaction B even begins (step 7), hence before B's commit
(step 9), yet A's final `get [107]` returns `[98]` — the value written by
B's `set`.  The cause: C commits a write to logical key `[0,0,0,0]`, and
`commit` deletes the decoded logical keys of its write log, erasing the
`NextVersion` counter, so B is allocated the stale version 1, which is below
A's snapshot version and not in A's active set, making B's write visible to
A. -/
theorem c1_snapshot_isolation_violated :
    mvccBegin [] = (.ok ⟨1, [1]⟩, c1w1) ∧
    mvccCommit ⟨1, [1]⟩ c1w1 = (.ok (), c1w2) ∧
    mvccBegin c1w2 = (.ok ⟨2, [2]⟩, c1w3) ∧
    mvccBegin c1w3 = (.ok ⟨3, [2, 3]⟩, c1w4) ∧
    mvccSet ⟨3, [2, 3]⟩ c1w4 [0, 0, 0, 0] [99] = (.ok (), c1w5) ∧
    mvccCommit ⟨3, [2, 3]⟩ c1w5 = (.ok (), c1w6) ∧
    mvccBegin c1w6 = (.ok ⟨1, [1, 2]⟩, c1w7) ∧
    mvccSet ⟨1, [1, 2]⟩ c1w7 [107] [98] = (.ok (), c1w8) ∧
    mvccCommit ⟨1, [1, 2]⟩ c1w8 = (.ok (), c1w9) ∧
    mvccGet ⟨2, [2]⟩ c1w9 [107] = .ok (some [98]) :=
  ⟨rfl, rfl, rfl, rfl, rfl, rfl, rfl, rfl, rfl, rfl⟩

/-- Claim C3 fails on the code: with `"a/1"`, `"a/2"`, `"b/1"` written and
committed, a transaction beginning afterwards sees all three keys through
`get`, yet `scan_visible_versions("a/")` returns the *empty* list instead of
the two `"a/*"` entries.  The bincode encoding of
`MvccKeyPrefix::Version("a/")` embeds the length 2 of the logical prefix,
while the stored keys embed length 3, so the encoded prefix is not a byte
prefix of any stored `Version` key and the prefix scan matches nothing. -/
theorem c3_scan_misses_committed_entries :
    mvccBegin [] = (.ok ⟨1, [1]⟩, freshS1) ∧
    mvccSet ⟨1, [1]⟩ freshS1 [97, 47, 49] [49] = (.ok (), c3r2) ∧
    mvccSet ⟨1, [1]⟩ c3r2 [97, 47, 50] [50] = (.ok (), c3r3) ∧
    mvccSet ⟨1, [1]⟩ c3r3 [98, 47, 49] [51] = (.ok (), c3r4) ∧
    mvccCommit ⟨1, [1]⟩ c3r4 = (.ok (), c3r5) ∧
    mvccBegin c3r5 = (.ok ⟨2, [2]⟩, c3r6) ∧
    mvccGet ⟨2, [2]⟩ c3r6 [97, 47, 49] = .ok (some [49]) ∧
    mvccGet ⟨2, [2]⟩ c3r6 [97, 47, 50] = .ok (some [50]) ∧
    mvccGet ⟨2, [2]⟩ c3r6 [98, 47, 49] = .ok (some [51]) ∧
    scanVisibleVersions ⟨2, [2]⟩ c3r6 [97, 47] = .ok [] :=
  ⟨rfl, rfl, rfl, rfl, rfl, rfl, rfl, rfl, rfl, rfl⟩

/-- Claim C5 fails on the code: the `TxnWrite` bookkeeping survives both
commit and rollback.  `commit` deletes the *decoded logical keys* of the
scanned `TxnWrite` entries (not the entries themselves) and `rollback`
deletes only the corresponding `Version` entries, so after either resolution
the `TxnWrite(1, [107])` entry is still present in storage, while the
transaction is no longer active (its `TxnActive` marker is gone). -/
theorem c5_txnwrite_survives_resolution :
    mvccBegin [] = (.ok ⟨1, [1]⟩, freshS1) ∧
    mvccSet ⟨1, [1]⟩ freshS1 [107] [120] = (.ok (), c5u2) ∧
    (mvccCommit ⟨1, [1]⟩ c5u2).1 = .ok () ∧
    sget (mvccCommit ⟨1, [1]⟩ c5u2).2 (MvccKey.txnWrite 1 [107]).encode = some [] ∧
    sget (mvccCommit ⟨1, [1]⟩ c5u2).2 (MvccKey.txnActive 1).encode = none ∧
    (mvccRollback ⟨1, [1]⟩ c5u2).1 = .ok () ∧
    sget (mvccRollback ⟨1, [1]⟩ c5u2).2 (MvccKey.txnWrite 1 [107]).encode = some [] ∧
    sget (mvccRollback ⟨1, [1]⟩ c5u2).2 (MvccKey.txnActive 1).encode = none :=
  ⟨rfl, rfl, rfl, rfl, rfl, rfl, rfl, rfl⟩

/-- Claim C6 fails on the code: commit does not always expose writes.
Transaction A writes logical key `k = [0,0,0,0]` (whose raw bytes equal the
encoded `NextVersion` storage key) and commits successfully; `commit`
deletes the decoded logical key — the `NextVersion` entry — so the next
transaction B is allocated version 1 again instead of 2, and B's `get k`
scans versions strictly below 1, misses A's committed version-1 entry, and
returns `none` instead of the committed value `[118, 49]`. -/
theorem c6_commit_does_not_expose_write :
    mvccBegin [] = (.ok ⟨1, [1]⟩, freshS1) ∧
    mvccSet ⟨1, [1]⟩ freshS1 [0, 0, 0, 0] [118, 49] = (.ok (), c6s2) ∧
    mvccCommit ⟨1, [1]⟩ c6s2 = (.ok (), c6s3) ∧
    mvccBegin c6s3 = (.ok ⟨1, [1]⟩, c6s4) ∧
    mvccGet ⟨1, [1]⟩ c6s4 [0, 0, 0, 0] = .ok none :=
  ⟨rfl, rfl, rfl, rfl, rfl⟩

/-- Every encoded key starting with the `TxnActive` family tag decodes to a
`TxnActive` key (the four family tags are the first four bytes). -/
theorem decode_of_startsWith_txnActive (mk : MvccKey)
    (h : startsWith MvccKeyPfx.txnActive.encode mk.encode = true) :
    ∃ v, MvccKey.decode mk.encode = some (.txnActive v) := by
  cases mk with
  | nextVersion => simp [MvccKeyPfx.encode, MvccKey.encode, startsWith] at h
  | txnActive v => exact ⟨v % 2 ^ 64, decode_encode_txnActive v⟩
  | txnWrite v k =>
    rw [encTW_cons] at h
    simp [MvccKeyPfx.encode, startsWith] at h
  | version k v =>
    rw [encV_cons] at h
    simp [MvccKeyPfx.encode, startsWith] at h

theorem collectActive_ok (L : List (ByteStr × ByteStr))
    (h : ∀ p ∈ L, ∃ v, MvccKey.decode p.1 = some (.txnActive v)) :
    ∃ l, collectActive L = .ok l := by
  induction L with
  | nil => exact ⟨[], rfl⟩
  | cons p rest ih =>
    obtain ⟨v, hv⟩ := h p (List.mem_cons_self _ _)
    obtain ⟨l, hl⟩ := ih fun q hq => h q (List.mem_cons_of_mem _ hq)
    exact ⟨v :: l, by simp only [collectActive, hv, hl]⟩

theorem collectActive_mem {L : List (ByteStr × ByteStr)} {l : List Nat}
    (hOK : collectActive L = .ok l) {k w : ByteStr} {v : Nat}
    (hmem : (k, w) ∈ L) (hdec : MvccKey.decode k = some (.txnActive v)) :
    v ∈ l := by
  induction L generalizing l with
  | nil => simp at hmem
  | cons p rest ih =>
    obtain ⟨k0, w0⟩ := p
    simp only [collectActive] at hOK
    split at hOK
    · rename_i v0 hdec0
      split at hOK
      · rename_i l0 hl0
        have hl : l = v0 :: l0 := by simpa using hOK.symm
        subst hl
        rcases List.mem_cons.mp hmem with heq | hmem'
        · have hk : k = k0 := (Prod.mk.injEq .. ▸ heq).1
          subst hk
          rw [hdec] at hdec0
          have : v = v0 := by simpa using hdec0
          simp [this]
        · exact List.mem_cons_of_mem _ (ih hl0 hmem')
      · simp at hOK
    · simp at hOK

/-- The state and result of `beginWith` on well-formed storage: the new
transaction gets version `nv`, the counter and marker are written, and the
active-set snapshot contains the version just registered. -/
theorem beginWith_spec (s : Storage) (nv : Nat)
    (hWF : ∀ p ∈ s, ∃ mk : MvccKey, p.1 = mk.encode) :
    ∃ l, beginWith nv s =
        (.ok ⟨nv, l⟩, sput (sput s MvccKey.nextVersion.encode (le64 (nv + 1)))
          (MvccKey.txnActive nv).encode []) ∧ nv % 2 ^ 64 ∈ l := by
  have hWF2 : ∀ p ∈ sput (sput s MvccKey.nextVersion.encode (le64 (nv + 1)))
      (MvccKey.txnActive nv).encode [], ∃ mk : MvccKey, p.1 = mk.encode := by
    intro p hp
    rcases mem_sput hp with heq | hp1
    · exact ⟨.txnActive nv, by simp [heq]⟩
    · rcases mem_sput hp1 with heq | hp2
      · exact ⟨.nextVersion, by simp [heq]⟩
      · exact hWF p hp2
  have hdecAll : ∀ p ∈ sscanPfx (sput (sput s MvccKey.nextVersion.encode (le64 (nv + 1)))
      (MvccKey.txnActive nv).encode []) MvccKeyPfx.txnActive.encode,
      ∃ v, MvccKey.decode p.1 = some (.txnActive v) := by
    intro p hp
    have hp' := List.mem_filter.mp hp
    obtain ⟨mk, hmk⟩ := hWF2 p hp'.1
    exact hmk ▸ decode_of_startsWith_txnActive mk (hmk ▸ hp'.2)
  obtain ⟨l, hl⟩ := collectActive_ok _ hdecAll
  refine ⟨l, by simp only [beginWith, hl], ?_⟩
  have hmemTA : ((MvccKey.txnActive nv).encode, ([] : ByteStr)) ∈
      sscanPfx (sput (sput s MvccKey.nextVersion.encode (le64 (nv + 1)))
        (MvccKey.txnActive nv).encode []) MvccKeyPfx.txnActive.encode := by
    refine List.mem_filter.mpr ⟨sget_mem (sget_sput_self _ _ _), ?_⟩
    show startsWith MvccKeyPfx.txnActive.encode ([1, 0, 0, 0] ++ le64 nv) = true
    exact startsWith_self_append _ _
  exact collectActive_mem hl hmemTA (decode_encode_txnActive nv)

theorem beginWith_ok_version {nv : Nat} {s : Storage} {t : Txn} {s2 : Storage}
    (h : beginWith nv s = (.ok t, s2)) : t.currentVersion = nv := by
  simp only [beginWith] at h
  split at h
  · have := congrArg Prod.fst h
    simp at this
    simp [this.symm]
  · exact absurd (congrArg Prod.fst h) (by simp)

/-- Claim C8: `begin` reads `NextVersion` (defaulting to 1 when absent),
stores `NextVersion + 1` back, registers the `TxnActive` marker before the
active-set scan — so the snapshot contains the instance's own version — and
the next `begin` on the resulting store is allocated exactly the successor
version, so chained `begin` calls yield pairwise distinct, strictly
increasing versions in completion order. -/
theorem c8_begin_allocates_and_registers (s : Storage) (h : WFStorage s) :
    ∃ t s2, mvccBegin s = (.ok t, s2) ∧
      (sget s MvccKey.nextVersion.encode = none → t.currentVersion = 1) ∧
      (∀ bs, sget s MvccKey.nextVersion.encode = some bs →
        decodeVersionVal bs = some t.currentVersion) ∧
      sget s2 MvccKey.nextVersion.encode = some (le64 (t.currentVersion + 1)) ∧
      sget s2 (MvccKey.txnActive t.currentVersion).encode = some [] ∧
      t.currentVersion ∈ t.activeVersions ∧
      ∀ t2 s3, mvccBegin s2 = (.ok t2, s3) →
        t2.currentVersion = t.currentVersion + 1 := by
  obtain ⟨hWF1, hWFnv⟩ := h
  have hTAne : (MvccKey.txnActive 1).encode ≠ MvccKey.nextVersion.encode ∧
      ∀ nv : Nat, (MvccKey.txnActive nv).encode ≠ MvccKey.nextVersion.encode := by
    constructor <;> [skip; intro nv] <;> simp [encTA_cons, MvccKey.encode]
  have main : ∀ nv : Nat, nv + 1 < 2 ^ 64 →
      ∃ l, beginWith nv s =
          (.ok ⟨nv, l⟩, sput (sput s MvccKey.nextVersion.encode (le64 (nv + 1)))
            (MvccKey.txnActive nv).encode []) ∧ nv ∈ l := by
    intro nv hlt
    obtain ⟨l, hbw, hmem⟩ := beginWith_spec s nv hWF1
    rw [Nat.mod_eq_of_lt (by omega)] at hmem
    exact ⟨l, hbw, hmem⟩
  cases hnv : sget s MvccKey.nextVersion.encode with
  | none =>
    obtain ⟨l, hbw, hmem⟩ := main 1 (by norm_num)
    have hNVs2 : sget (sput (sput s MvccKey.nextVersion.encode (le64 2))
        (MvccKey.txnActive 1).encode []) MvccKey.nextVersion.encode =
        some (le64 2) := by
      rw [sget_sput_ne _ _ hTAne.1, sget_sput_self]
    refine ⟨⟨1, l⟩, _, by simp only [mvccBegin, hnv]; exact hbw, fun _ => rfl,
      fun bs hbs => absurd hbs (by simp), hNVs2,
      sget_sput_self _ _ _, hmem, ?_⟩
    intro t2 s3 h2
    simp only [mvccBegin, hNVs2, decodeVersionVal_le64 (show (2 : Nat) < 2 ^ 64 by norm_num)]
      at h2
    exact beginWith_ok_version h2
  | some bs =>
    obtain ⟨n, hn1, hbs⟩ := hWFnv bs hnv
    obtain ⟨l, hbw, hmem⟩ := main n hn1
    have hdecv : decodeVersionVal bs = some n := by
      rw [hbs]; exact decodeVersionVal_le64 (by omega)
    have hNVs2 : sget (sput (sput s MvccKey.nextVersion.encode (le64 (n + 1)))
        (MvccKey.txnActive n).encode []) MvccKey.nextVersion.encode =
        some (le64 (n + 1)) := by
      rw [sget_sput_ne _ _ (hTAne.2 n), sget_sput_self]
    refine ⟨⟨n, l⟩, _, by simp only [mvccBegin, hnv, hdecv]; exact hbw,
      fun hc => absurd hc (by simp),
      fun bs2 hbs2 => by
        have hb : bs2 = bs := (Option.some.inj hbs2).symm
        rw [hb]; exact hdecv, hNVs2,
      sget_sput_self _ _ _, hmem, ?_⟩
    intro t2 s3 h2
    simp only [mvccBegin, hNVs2, decodeVersionVal_le64 hn1] at h2
    exact beginWith_ok_version h2

/-- Witness for C8: the empty storage is well-formed, and `begin` on it
satisfies the postcondition. -/
theorem c8_begin_allocates_and_registers_witness :
    WFStorage [] ∧
    ∃ t s2, mvccBegin [] = (.ok t, s2) ∧
      (sget [] MvccKey.nextVersion.encode = none → t.currentVersion = 1) ∧
      (∀ bs, sget [] MvccKey.nextVersion.encode = some bs →
        decodeVersionVal bs = some t.currentVersion) ∧
      sget s2 MvccKey.nextVersion.encode = some (le64 (t.currentVersion + 1)) ∧
      sget s2 (MvccKey.txnActive t.currentVersion).encode = some [] ∧
      t.currentVersion ∈ t.activeVersions ∧
      ∀ t2 s3, mvccBegin s2 = (.ok t2, s3) →
        t2.currentVersion = t.currentVersion + 1 :=
  have hwf : WFStorage [] := ⟨by simp, by simp [sget]⟩
  ⟨hwf, c8_begin_allocates_and_registers [] hwf⟩

/-- Claim C2: order preservation fails in the code.  With bincode's
little-endian fixed-width `u64` encoding, `Version([], 256)` encodes to bytes
that sort strictly *before* the encoding of `Version([], 1)`, although
`1 < 256`: the claimed order preservation of `MvccKey::encode` is violated. -/
theorem c2_le_encoding_not_order_preserving :
    lexLt (MvccKey.version [] 256).encode (MvccKey.version [] 1).encode = true ∧
    lexLt (MvccKey.version [] 1).encode (MvccKey.version [] 256).encode = false := by
  constructor <;> rfl

theorem c4s2_eq :
    c4s2 = [(MvccKey.nextVersion.encode, le64 3), ((MvccKey.txnActive 1).encode, []),
      ((MvccKey.txnActive 2).encode, [])] := by rfl

theorem c4_set_step (k v : ByteStr) :
    writeInner ⟨2, [1, 2]⟩ c4s2 k (some v) = (.ok (), c4s3 k v) := by
  have h1 : lexLe (MvccKey.version k 1).encode MvccKey.nextVersion.encode = false := by
    rw [encV_cons]
    exact lexLe_cons_of_gt _ _ (by norm_num)
  have h2 : lexLe (MvccKey.version k 1).encode (MvccKey.txnActive 1).encode = false := by
    rw [encV_cons, encTA_cons]
    exact lexLe_cons_of_gt _ _ (by norm_num)
  have h3 : lexLe (MvccKey.version k 1).encode (MvccKey.txnActive 2).encode = false := by
    rw [encV_cons, encTA_cons]
    exact lexLe_cons_of_gt _ _ (by norm_num)
  have hscan : sscan c4s2 (MvccKey.version k 1).encode
      (MvccKey.version k vmax).encode true = [] := by
    rw [c4s2_eq]
    simp [sscan, List.filter_cons, h1, h2, h3]
  have ha1 : lexLt (MvccKey.txnWrite 2 k).encode MvccKey.nextVersion.encode = false := by
    rw [encTW_cons]
    exact lexLt_cons_of_gt _ _ (by norm_num)
  have ha2 : lexLt (MvccKey.txnWrite 2 k).encode (MvccKey.txnActive 1).encode = false := by
    rw [encTW_cons, encTA_cons]
    exact lexLt_cons_of_gt _ _ (by norm_num)
  have ha3 : lexLt (MvccKey.txnWrite 2 k).encode (MvccKey.txnActive 2).encode = false := by
    rw [encTW_cons, encTA_cons]
    exact lexLt_cons_of_gt _ _ (by norm_num)
  have hb1 : (MvccKey.txnWrite 2 k).encode ≠ MvccKey.nextVersion.encode := by
    rw [encTW_cons]
    simp [MvccKey.encode]
  have hb2 : (MvccKey.txnWrite 2 k).encode ≠ (MvccKey.txnActive 1).encode := by
    rw [encTW_cons, encTA_cons]
    simp
  have hb3 : (MvccKey.txnWrite 2 k).encode ≠ (MvccKey.txnActive 2).encode := by
    rw [encTW_cons, encTA_cons]
    simp
  have hput1 : sput c4s2 (MvccKey.txnWrite 2 k).encode [] =
      [(MvccKey.nextVersion.encode, le64 3), ((MvccKey.txnActive 1).encode, []),
       ((MvccKey.txnActive 2).encode, []), ((MvccKey.txnWrite 2 k).encode, [])] := by
    rw [c4s2_eq]
    simp [sput, ha1, ha2, ha3, hb1, hb2, hb3]
  have hc1 : lexLt (MvccKey.version k 2).encode MvccKey.nextVersion.encode = false := by
    rw [encV_cons]
    exact lexLt_cons_of_gt _ _ (by norm_num)
  have hc2 : lexLt (MvccKey.version k 2).encode (MvccKey.txnActive 1).encode = false := by
    rw [encV_cons, encTA_cons]
    exact lexLt_cons_of_gt _ _ (by norm_num)
  have hc3 : lexLt (MvccKey.version k 2).encode (MvccKey.txnActive 2).encode = false := by
    rw [encV_cons, encTA_cons]
    exact lexLt_cons_of_gt _ _ (by norm_num)
  have hc4 : lexLt (MvccKey.version k 2).encode (MvccKey.txnWrite 2 k).encode = false := by
    rw [encV_cons, encTW_cons]
    exact lexLt_cons_of_gt _ _ (by norm_num)
  have hd1 : (MvccKey.version k 2).encode ≠ MvccKey.nextVersion.encode := by
    rw [encV_cons]
    simp [MvccKey.encode]
  have hd2 : (MvccKey.version k 2).encode ≠ (MvccKey.txnActive 1).encode := by
    rw [encV_cons, encTA_cons]
    simp
  have hd3 : (MvccKey.version k 2).encode ≠ (MvccKey.txnActive 2).encode := by
    rw [encV_cons, encTA_cons]
    simp
  have hd4 : (MvccKey.version k 2).encode ≠ (MvccKey.txnWrite 2 k).encode := by
    rw [encV_cons, encTW_cons]
    simp
  have hput2 : sput [(MvccKey.nextVersion.encode, le64 3), ((MvccKey.txnActive 1).encode, []),
       ((MvccKey.txnActive 2).encode, []), ((MvccKey.txnWrite 2 k).encode, [])]
      (MvccKey.version k 2).encode v = c4s3 k v := by
    simp [sput, c4s3, hc1, hc2, hc3, hc4, hd1, hd2, hd3, hd4]
  simp only [writeInner, applyWrite]
  norm_num [minOr]
  rw [hscan]
  simp only [List.getLast?_nil]
  rw [hput1, hput2]

theorem encPfxTW_cons (v : Nat) :
    (MvccKeyPfx.txnWrite v).encode = 2 :: 0 :: 0 :: 0 :: le64 v := rfl

theorem c4_commit_step (k v : ByteStr) (hk : k.length < 2 ^ 64) :
    mvccCommit ⟨2, [1, 2]⟩ (c4s3 k v) =
      (.ok (), sdel (sdel (c4s3 k v) k) (MvccKey.txnActive 2).encode) := by
  have hp1 : startsWith (MvccKeyPfx.txnWrite 2).encode MvccKey.nextVersion.encode = false := by
    rw [encPfxTW_cons]
    exact startsWith_cons_ne _ _ (by norm_num)
  have hp2 : startsWith (MvccKeyPfx.txnWrite 2).encode (MvccKey.txnActive 1).encode = false := by
    rw [encPfxTW_cons, encTA_cons]
    exact startsWith_cons_ne _ _ (by norm_num)
  have hp3 : startsWith (MvccKeyPfx.txnWrite 2).encode (MvccKey.txnActive 2).encode = false := by
    rw [encPfxTW_cons, encTA_cons]
    exact startsWith_cons_ne _ _ (by norm_num)
  have hp4 : startsWith (MvccKeyPfx.txnWrite 2).encode (MvccKey.txnWrite 2 k).encode = true := by
    rw [encPfxTW_cons, encTW_cons]
    simp [startsWith, le64, startsWith_self_append]
  have hp5 : startsWith (MvccKeyPfx.txnWrite 2).encode (MvccKey.version k 2).encode = false := by
    rw [encPfxTW_cons, encV_cons]
    exact startsWith_cons_ne _ _ (by norm_num)
  have hscanp : sscanPfx (c4s3 k v) (MvccKeyPfx.txnWrite 2).encode =
      [((MvccKey.txnWrite 2 k).encode, [])] := by
    simp [sscanPfx, c4s3, List.filter_cons, hp1, hp2, hp3, hp4, hp5]
  have hdec : MvccKey.decode (MvccKey.txnWrite 2 k).encode = some (.txnWrite 2 k) :=
    decode_encode_txnWrite 2 k (by norm_num) hk
  have hcoll : collectTxnWrites [((MvccKey.txnWrite 2 k).encode, ([] : ByteStr))] =
      .ok [k] := by
    simp only [collectTxnWrites, hdec]
  simp only [mvccCommit, hscanp, hcoll, sdelAll]

theorem c4_conflict_step (k v : ByteStr) (w : Option ByteStr) (hk : k.length < 2 ^ 64) :
    writeInner ⟨1, [1]⟩ (sdel (sdel (c4s3 k v) k) (MvccKey.txnActive 2).encode) k w =
      (.error .writeConflict, sdel (sdel (c4s3 k v) k) (MvccKey.txnActive 2).encode) := by
  have hTA2lo : lexLe (MvccKey.version k 1).encode (MvccKey.txnActive 2).encode = false := by
    rw [encV_cons, encTA_cons]
    exact lexLe_cons_of_gt _ _ (by norm_num)
  have hfTA2 : (lexLe (MvccKey.version k 1).encode (MvccKey.txnActive 2).encode &&
      lexLe (MvccKey.txnActive 2).encode (MvccKey.version k vmax).encode) = false := by
    simp [hTA2lo]
  have hfk : (lexLe (MvccKey.version k 1).encode k &&
      lexLe k (MvccKey.version k vmax).encode) = false := by
    cases hc : (lexLe (MvccKey.version k 1).encode k &&
        lexLe k (MvccKey.version k vmax).encode) with
    | false => rfl
    | true =>
      rcases Bool.and_eq_true_iff.mp hc with ⟨hc1, hc2⟩
      exact absurd (not_in_own_version_range k 1 vmax hc1 hc2) (fun h => h)
  have hf1 : (lexLe (MvccKey.version k 1).encode MvccKey.nextVersion.encode &&
      lexLe MvccKey.nextVersion.encode (MvccKey.version k vmax).encode) = false := by
    have : lexLe (MvccKey.version k 1).encode MvccKey.nextVersion.encode = false := by
      rw [encV_cons]
      exact lexLe_cons_of_gt _ _ (by norm_num)
    simp [this]
  have hf2 : (lexLe (MvccKey.version k 1).encode (MvccKey.txnActive 1).encode &&
      lexLe (MvccKey.txnActive 1).encode (MvccKey.version k vmax).encode) = false := by
    have : lexLe (MvccKey.version k 1).encode (MvccKey.txnActive 1).encode = false := by
      rw [encV_cons, encTA_cons]
      exact lexLe_cons_of_gt _ _ (by norm_num)
    simp [this]
  have hf3 : (lexLe (MvccKey.version k 1).encode (MvccKey.txnWrite 2 k).encode &&
      lexLe (MvccKey.txnWrite 2 k).encode (MvccKey.version k vmax).encode) = false := by
    have : lexLe (MvccKey.version k 1).encode (MvccKey.txnWrite 2 k).encode = false := by
      rw [encV_cons, encTW_cons]
      exact lexLe_cons_of_gt _ _ (by norm_num)
    simp [this]
  have hf4 : (lexLe (MvccKey.version k 1).encode (MvccKey.version k 2).encode &&
      lexLe (MvccKey.version k 2).encode (MvccKey.version k vmax).encode) = true := by
    rw [encV_split k 1, encV_split k 2, encV_split k vmax]
    simp only [lexLe, lexLt_append_same]
    decide
  have hscan : sscan (sdel (sdel (c4s3 k v) k) (MvccKey.txnActive 2).encode)
      (MvccKey.version k 1).encode (MvccKey.version k vmax).encode true =
      [((MvccKey.version k 2).encode, v)] := by
    simp only [sscan, if_true]
    rw [filter_sdel (sdel (c4s3 k v) k) (MvccKey.txnActive 2).encode
        (fun e => lexLe (MvccKey.version k 1).encode e.1 &&
          lexLe e.1 (MvccKey.version k vmax).encode) (fun _ => hfTA2)]
    rw [filter_sdel (c4s3 k v) k
        (fun e => lexLe (MvccKey.version k 1).encode e.1 &&
          lexLe e.1 (MvccKey.version k vmax).encode) (fun _ => hfk)]
    simp [c4s3, List.filter_cons, hTA2lo, hf1, hf2, hf3, hf4]
  have hdec : MvccKey.decode (MvccKey.version k 2).encode = some (.version k 2) :=
    decode_encode_version k 2 (by norm_num) hk
  have hmin : minOr [1] (1 + 1) = 1 := rfl
  have hvis : isVersionVisible ⟨1, [1]⟩ 2 = false := rfl
  have hlast : ([((MvccKey.version k 2).encode, v)] : List (ByteStr × ByteStr)).getLast? =
      some ((MvccKey.version k 2).encode, v) := rfl
  simp only [writeInner, hmin, hscan, hlast, hdec, hvis]
  simp

/-- Claim C4: first-writer-wins conflict detection.  For every logical key
`k` and value `v`: transaction A begins (version 1), transaction B begins
(version 2), B sets `k := v` and commits successfully; then any write
attempt by A on `k` — `set` (`w = some _`) or `delete` (`w = none`) — fails
with the write-conflict error, because the conflict scan finds B's
version-2 entry, which is above A's snapshot version and hence invisible. -/
theorem c4_first_writer_wins (k v : ByteStr) (w : Option ByteStr)
    (hk : k.length < 2 ^ 64) :
    mvccBegin [] = (.ok ⟨1, [1]⟩, c4s1) ∧
    mvccBegin c4s1 = (.ok ⟨2, [1, 2]⟩, c4s2) ∧
    writeInner ⟨2, [1, 2]⟩ c4s2 k (some v) = (.ok (), c4s3 k v) ∧
    (mvccCommit ⟨2, [1, 2]⟩ (c4s3 k v)).1 = .ok () ∧
    (writeInner ⟨1, [1]⟩ (c4s4 k v) k w).1 = .error .writeConflict := by
  have hcommit := c4_commit_step k v hk
  refine ⟨rfl, rfl, c4_set_step k v, by rw [hcommit], ?_⟩
  have hs4 : c4s4 k v = sdel (sdel (c4s3 k v) k) (MvccKey.txnActive 2).encode := by
    simp [c4s4, hcommit]
  rw [hs4, c4_conflict_step k v w hk]

/-- Witness for C4 at the concrete key `[107]`, value `[120]`, delete
attempt. -/
theorem c4_first_writer_wins_witness :
    ([107] : ByteStr).length < 2 ^ 64 ∧
    (mvccBegin [] = (.ok ⟨1, [1]⟩, c4s1) ∧
     mvccBegin c4s1 = (.ok ⟨2, [1, 2]⟩, c4s2) ∧
     writeInner ⟨2, [1, 2]⟩ c4s2 [107] (some [120]) = (.ok (), c4s3 [107] [120]) ∧
     (mvccCommit ⟨2, [1, 2]⟩ (c4s3 [107] [120])).1 = .ok () ∧
     (writeInner ⟨1, [1]⟩ (c4s4 [107] [120]) [107] none).1 = .error .writeConflict) :=
  ⟨by norm_num, c4_first_writer_wins [107] [120] none (by norm_num)⟩

theorem freshS1_eq :
    freshS1 = [(MvccKey.nextVersion.encode, le64 2), ((MvccKey.txnActive 1).encode, [])] := by
  rfl

theorem c7_set_step (k x : ByteStr) :
    writeInner ⟨1, [1]⟩ freshS1 k (some x) = (.ok (), c7s2 k x) := by
  have h1 : lexLe (MvccKey.version k 1).encode MvccKey.nextVersion.encode = false := by
    rw [encV_cons]
    exact lexLe_cons_of_gt _ _ (by norm_num)
  have h2 : lexLe (MvccKey.version k 1).encode (MvccKey.txnActive 1).encode = false := by
    rw [encV_cons, encTA_cons]
    exact lexLe_cons_of_gt _ _ (by norm_num)
  have hscan : sscan freshS1 (MvccKey.version k 1).encode
      (MvccKey.version k vmax).encode true = [] := by
    rw [freshS1_eq]
    simp [sscan, List.filter_cons, h1, h2]
  have ha1 : lexLt (MvccKey.txnWrite 1 k).encode MvccKey.nextVersion.encode = false := by
    rw [encTW_cons]
    exact lexLt_cons_of_gt _ _ (by norm_num)
  have ha2 : lexLt (MvccKey.txnWrite 1 k).encode (MvccKey.txnActive 1).encode = false := by
    rw [encTW_cons, encTA_cons]
    exact lexLt_cons_of_gt _ _ (by norm_num)
  have hb1 : (MvccKey.txnWrite 1 k).encode ≠ MvccKey.nextVersion.encode := by
    rw [encTW_cons]
    simp [MvccKey.encode]
  have hb2 : (MvccKey.txnWrite 1 k).encode ≠ (MvccKey.txnActive 1).encode := by
    rw [encTW_cons, encTA_cons]
    simp
  have hput1 : sput freshS1 (MvccKey.txnWrite 1 k).encode [] =
      [(MvccKey.nextVersion.encode, le64 2), ((MvccKey.txnActive 1).encode, []),
       ((MvccKey.txnWrite 1 k).encode, [])] := by
    rw [freshS1_eq]
    simp [sput, ha1, ha2, hb1, hb2]
  have hc1 : lexLt (MvccKey.version k 1).encode MvccKey.nextVersion.encode = false := by
    rw [encV_cons]
    exact lexLt_cons_of_gt _ _ (by norm_num)
  have hc2 : lexLt (MvccKey.version k 1).encode (MvccKey.txnActive 1).encode = false := by
    rw [encV_cons, encTA_cons]
    exact lexLt_cons_of_gt _ _ (by norm_num)
  have hc3 : lexLt (MvccKey.version k 1).encode (MvccKey.txnWrite 1 k).encode = false := by
    rw [encV_cons, encTW_cons]
    exact lexLt_cons_of_gt _ _ (by norm_num)
  have hd1 : (MvccKey.version k 1).encode ≠ MvccKey.nextVersion.encode := by
    rw [encV_cons]
    simp [MvccKey.encode]
  have hd2 : (MvccKey.version k 1).encode ≠ (MvccKey.txnActive 1).encode := by
    rw [encV_cons, encTA_cons]
    simp
  have hd3 : (MvccKey.version k 1).encode ≠ (MvccKey.txnWrite 1 k).encode := by
    rw [encV_cons, encTW_cons]
    simp
  have hput2 : sput [(MvccKey.nextVersion.encode, le64 2), ((MvccKey.txnActive 1).encode, []),
       ((MvccKey.txnWrite 1 k).encode, [])] (MvccKey.version k 1).encode x = c7s2 k x := by
    simp [sput, c7s2, hc1, hc2, hc3, hd1, hd2, hd3]
  simp only [writeInner, applyWrite]
  norm_num [minOr]
  rw [hscan]
  simp only [List.getLast?_nil]
  rw [hput1, hput2]

theorem c7_rollback_step (k x : ByteStr) (hk : k.length < 2 ^ 64) :
    mvccRollback ⟨1, [1]⟩ (c7s2 k x) =
      (.ok (), [(MvccKey.nextVersion.encode, le64 2),
        ((MvccKey.txnWrite 1 k).encode, [])]) := by
  have hp1 : startsWith (MvccKeyPfx.txnWrite 1).encode MvccKey.nextVersion.encode = false := by
    rw [encPfxTW_cons]
    exact startsWith_cons_ne _ _ (by norm_num)
  have hp2 : startsWith (MvccKeyPfx.txnWrite 1).encode (MvccKey.txnActive 1).encode = false := by
    rw [encPfxTW_cons, encTA_cons]
    exact startsWith_cons_ne _ _ (by norm_num)
  have hp3 : startsWith (MvccKeyPfx.txnWrite 1).encode (MvccKey.txnWrite 1 k).encode = true := by
    rw [encPfxTW_cons, encTW_cons]
    simp [startsWith, le64, startsWith_self_append]
  have hp4 : startsWith (MvccKeyPfx.txnWrite 1).encode (MvccKey.version k 1).encode = false := by
    rw [encPfxTW_cons, encV_cons]
    exact startsWith_cons_ne _ _ (by norm_num)
  have hscanp : sscanPfx (c7s2 k x) (MvccKeyPfx.txnWrite 1).encode =
      [((MvccKey.txnWrite 1 k).encode, [])] := by
    simp [sscanPfx, c7s2, List.filter_cons, hp1, hp2, hp3, hp4]
  have hdec : MvccKey.decode (MvccKey.txnWrite 1 k).encode = some (.txnWrite 1 k) :=
    decode_encode_txnWrite 1 k (by norm_num) hk
  have hcoll : collectRollbackKeys 1 [((MvccKey.txnWrite 1 k).encode, ([] : ByteStr))] =
      .ok [(MvccKey.version k 1).encode] := by
    simp only [collectRollbackKeys, hdec]
  have he1 : MvccKey.nextVersion.encode ≠ (MvccKey.version k 1).encode := by
    rw [encV_cons]
    simp [MvccKey.encode]
  have he2 : (MvccKey.txnActive 1).encode ≠ (MvccKey.version k 1).encode := by
    rw [encV_cons, encTA_cons]
    simp
  have he3 : (MvccKey.txnWrite 1 k).encode ≠ (MvccKey.version k 1).encode := by
    rw [encV_cons, encTW_cons]
    simp
  have hdel1 : sdel (c7s2 k x) (MvccKey.version k 1).encode =
      [(MvccKey.nextVersion.encode, le64 2), ((MvccKey.txnActive 1).encode, []),
       ((MvccKey.txnWrite 1 k).encode, [])] := by
    simp [sdel, c7s2, he1, he2, he3]
  have hg1 : MvccKey.nextVersion.encode ≠ (MvccKey.txnActive 1).encode := by
    rw [encTA_cons]
    simp [MvccKey.encode]
  have hg2 : (MvccKey.txnWrite 1 k).encode ≠ (MvccKey.txnActive 1).encode := by
    rw [encTW_cons, encTA_cons]
    simp
  simp only [mvccRollback, hscanp, hcoll, sdelAll, hdel1]
  simp [sdel, hg1, hg2]

theorem c7_begin_step (k : ByteStr) :
    mvccBegin [(MvccKey.nextVersion.encode, le64 2), ((MvccKey.txnWrite 1 k).encode, [])] =
      (.ok ⟨2, [2]⟩, [(MvccKey.nextVersion.encode, le64 3), ((MvccKey.txnActive 2).encode, []),
        ((MvccKey.txnWrite 1 k).encode, [])]) := by
  have hget : sget [(MvccKey.nextVersion.encode, le64 2), ((MvccKey.txnWrite 1 k).encode, [])]
      MvccKey.nextVersion.encode = some (le64 2) := by
    simp [sget]
  have hdv : decodeVersionVal (le64 2) = some 2 := rfl
  have ha1 : lexLt MvccKey.nextVersion.encode MvccKey.nextVersion.encode = false :=
    lexLt_irrefl _
  have hput1 : sput [(MvccKey.nextVersion.encode, le64 2), ((MvccKey.txnWrite 1 k).encode, [])]
      MvccKey.nextVersion.encode (le64 (2 + 1)) =
      [(MvccKey.nextVersion.encode, le64 3), ((MvccKey.txnWrite 1 k).encode, [])] := by
    simp [sput, ha1]
  have hb1 : lexLt (MvccKey.txnActive 2).encode MvccKey.nextVersion.encode = false := by
    rw [encTA_cons]
    exact lexLt_cons_of_gt _ _ (by norm_num)
  have hb2 : (MvccKey.txnActive 2).encode ≠ MvccKey.nextVersion.encode := by
    rw [encTA_cons]
    simp [MvccKey.encode]
  have hb3 : lexLt (MvccKey.txnActive 2).encode (MvccKey.txnWrite 1 k).encode = true := by
    rw [encTA_cons, encTW_cons]
    exact lexLt_cons_of_lt _ _ (by norm_num)
  have hput2 : sput [(MvccKey.nextVersion.encode, le64 3), ((MvccKey.txnWrite 1 k).encode, [])]
      (MvccKey.txnActive 2).encode [] =
      [(MvccKey.nextVersion.encode, le64 3), ((MvccKey.txnActive 2).encode, []),
       ((MvccKey.txnWrite 1 k).encode, [])] := by
    simp [sput, hb1, hb2, hb3]
  have hq1 : startsWith MvccKeyPfx.txnActive.encode MvccKey.nextVersion.encode = false := by
    simp [MvccKeyPfx.encode, MvccKey.encode, startsWith]
  have hq2 : startsWith MvccKeyPfx.txnActive.encode (MvccKey.txnActive 2).encode = true := by
    rw [encTA_cons]
    simp [MvccKeyPfx.encode, startsWith]
  have hq3 : startsWith MvccKeyPfx.txnActive.encode (MvccKey.txnWrite 1 k).encode = false := by
    rw [encTW_cons]
    exact startsWith_cons_ne _ _ (by norm_num)
  have hscanp : sscanPfx [(MvccKey.nextVersion.encode, le64 3),
      ((MvccKey.txnActive 2).encode, []), ((MvccKey.txnWrite 1 k).encode, [])]
      MvccKeyPfx.txnActive.encode = [((MvccKey.txnActive 2).encode, [])] := by
    simp [sscanPfx, List.filter_cons, hq1, hq2, hq3]
  have hcoll : collectActive [((MvccKey.txnActive 2).encode, ([] : ByteStr))] = .ok [2] := rfl
  simp only [mvccBegin, hget, hdv, beginWith, hput1, hput2, hscanp, hcoll]

theorem c7_get_step (k : ByteStr) :
    mvccGet ⟨2, [2]⟩ [(MvccKey.nextVersion.encode, le64 3), ((MvccKey.txnActive 2).encode, []),
      ((MvccKey.txnWrite 1 k).encode, [])] k = .ok none := by
  have h1 : lexLe (MvccKey.version k 0).encode MvccKey.nextVersion.encode = false := by
    rw [encV_cons]
    exact lexLe_cons_of_gt _ _ (by norm_num)
  have h2 : lexLe (MvccKey.version k 0).encode (MvccKey.txnActive 2).encode = false := by
    rw [encV_cons, encTA_cons]
    exact lexLe_cons_of_gt _ _ (by norm_num)
  have h3 : lexLe (MvccKey.version k 0).encode (MvccKey.txnWrite 1 k).encode = false := by
    rw [encV_cons, encTW_cons]
    exact lexLe_cons_of_gt _ _ (by norm_num)
  have hscan : sscan [(MvccKey.nextVersion.encode, le64 3), ((MvccKey.txnActive 2).encode, []),
      ((MvccKey.txnWrite 1 k).encode, [])] (MvccKey.version k 0).encode
      (MvccKey.version k 2).encode false = [] := by
    simp [sscan, List.filter_cons, h1, h2, h3]
  simp only [mvccGet, hscan, List.reverse_nil, getLoop]

/-- Claim C7: rollback undoes writes.  For every key `k` (fresh store, no
prior committed version): transaction 1 sets `k := x`, rolls back
successfully (deleting the `Version(k, 1)` entry), and the next transaction
to begin observes `get k = none`. -/
theorem c7_rollback_undoes_write (k x : ByteStr) (hk : k.length < 2 ^ 64) :
    mvccBegin [] = (.ok ⟨1, [1]⟩, freshS1) ∧
    writeInner ⟨1, [1]⟩ freshS1 k (some x) = (.ok (), c7s2 k x) ∧
    (mvccRollback ⟨1, [1]⟩ (c7s2 k x)).1 = .ok () ∧
    (mvccBegin (c7s3 k x)).1 = .ok ⟨2, [2]⟩ ∧
    mvccGet ⟨2, [2]⟩ (c7s4 k x) k = .ok none := by
  have hroll := c7_rollback_step k x hk
  have hs3 : c7s3 k x = [(MvccKey.nextVersion.encode, le64 2),
      ((MvccKey.txnWrite 1 k).encode, [])] := by
    simp [c7s3, hroll]
  have hbegin := c7_begin_step k
  have hs4 : c7s4 k x = [(MvccKey.nextVersion.encode, le64 3),
      ((MvccKey.txnActive 2).encode, []), ((MvccKey.txnWrite 1 k).encode, [])] := by
    simp [c7s4, hs3, hbegin]
  refine ⟨rfl, c7_set_step k x, by rw [hroll], by rw [hs3, hbegin], ?_⟩
  rw [hs4]
  exact c7_get_step k

/-- Witness for C7 at the concrete key `[107]`, value `[120]`. -/
theorem c7_rollback_undoes_write_witness :
    ([107] : ByteStr).length < 2 ^ 64 ∧
    (mvccBegin [] = (.ok ⟨1, [1]⟩, freshS1) ∧
     writeInner ⟨1, [1]⟩ freshS1 [107] (some [120]) = (.ok (), c7s2 [107] [120]) ∧
     (mvccRollback ⟨1, [1]⟩ (c7s2 [107] [120])).1 = .ok () ∧
     (mvccBegin (c7s3 [107] [120])).1 = .ok ⟨2, [2]⟩ ∧
     mvccGet ⟨2, [2]⟩ (c7s4 [107] [120]) [107] = .ok none) :=
  ⟨by norm_num, c7_rollback_undoes_write [107] [120] (by norm_num)⟩

end SqldbMvcc
